import Mathlib

/-!
# Verification of the podcast subscription/download core (`src/structs.rs`)

Shallow embedding of the Rust source `src/structs.rs`: the `State` /
`Subscription` persistence layer (JSON serialize, write to a temp file,
rename over the real state file), the `subscribe` dedup-by-title logic,
the download orchestration (`Podcast::download`, `Podcast::download_specific`,
`Episode::download`) and extension resolution (`Episode::extension`).

Functions that live outside `src/` (`utils::get_podcast_dir`,
`utils::get_sub_file`, `utils::already_downloaded`, `utils::find_extension`,
`actions::update_rss`) are modelled from the spec, each marked
`Modelled from the spec:` in its doc comment.

Machine integers: `usize` is modelled as `Nat` with explicit wrapping
(`% 2^64`) where Rust release-mode subtraction can wrap
(`Podcast::download_specific`).  Timestamps (`DateTime<Utc>`) are modelled
as whole seconds since the epoch (`Nat`), with `chrono`'s
`signed_duration_since(..).num_seconds()` becoming subtraction in `Int`.
-/

/-- `Subscription { title, url, num_episodes }` from `structs.rs`. -/
structure Subscription where
  title : String
  url : String
  num_episodes : Nat
deriving DecidableEq, Repr

/-- `State { last_run_time, subs }` from `structs.rs`.  `last_run_time`
is whole seconds since the epoch. -/
structure State where
  last_run_time : Nat
  subs : List Subscription
deriving DecidableEq, Repr

/-- An RSS enclosure: `rss::Enclosure` exposes a url and a mime type. -/
structure Enclosure where
  url : String
  mime_type : String
deriving DecidableEq, Repr

/-- `Episode(Item)`: the projections the source uses are `title()`
(optional) and `enclosure()` (optional, giving url and mime type). -/
structure Episode where
  title : Option String
  enclosure : Option Enclosure
deriving DecidableEq, Repr

/-- `Podcast(Channel)`: the projections the source uses are `title()`
and `items()` (the ordered episode list, newest first). -/
structure Podcast where
  title : String
  episodes : List Episode
deriving DecidableEq, Repr

/-- `Episode::url`: the enclosure's url, when an enclosure exists. -/
def Episode.url (e : Episode) : Option String :=
  match e.enclosure with
  | some enc => some enc.url
  | none => none

/-! ## JSON-style serialization (serde_json on `State`)

`serde_json::to_string` emits fields in declaration order:
`{"last_run_time":"<timestamp>","subs":[{"title":..,"url":..,"num_episodes":..},..]}`.
The timestamp string is modelled as the decimal seconds value.  The codec
below is executable in both directions so the save/load round trip can be
proved and evaluated. -/

/-- JSON string escaping: `"` and `\` are escaped with a backslash. -/
def escChar (c : Char) : List Char :=
  if c = '"' ∨ c = '\\' then ['\\', c] else [c]

/-- Escape a whole string (as a character list). -/
def escStr (l : List Char) : List Char := l.flatMap escChar

/-- The character for a decimal digit value. -/
def digitChar (d : Nat) : Char := Char.ofNat (48 + d)

/-- Decimal encoding of a natural number, most significant digit first. -/
def encNat (n : Nat) : List Char :=
  if n = 0 then ['0'] else ((Nat.digits 10 n).reverse).map digitChar

/-- The digit value of a character. -/
def charVal (c : Char) : Nat := c.toNat - 48

/-- JSON encoding of one `Subscription` (serde field order). -/
def encSub (s : Subscription) : List Char :=
  "\x7b\"title\":\"".toList ++ escStr s.title.toList
    ++ "\",\"url\":\"".toList ++ escStr s.url.toList
    ++ "\",\"num_episodes\":".toList ++ encNat s.num_episodes
    ++ "\x7d".toList

/-- Comma-separated JSON encoding of the subscription list. -/
def encSubs : List Subscription → List Char
  | [] => []
  | [s] => encSub s
  | s :: rest => encSub s ++ [','] ++ encSubs rest

/-- JSON encoding of a `State` (serde field order). -/
def encState (st : State) : List Char :=
  "\x7b\"last_run_time\":\"".toList ++ encNat st.last_run_time
    ++ "\",\"subs\":[".toList ++ encSubs st.subs ++ "]\x7d".toList

/-- `serde_json::to_string(state)`. -/
def serializeState (st : State) : String := String.mk (encState st)

/-- Strip an expected literal prefix, returning the rest. -/
def dropLit : List Char → List Char → Option (List Char)
  | [], l => some l
  | _ :: _, [] => none
  | p :: ps, c :: cs => if c = p then dropLit ps cs else none

/-- Parse a JSON string body (opening quote already consumed): returns the
unescaped content and the input after the closing quote. -/
def parseJStr : List Char → Option (List Char × List Char)
  | [] => none
  | c :: rest =>
    if c = '"' then some ([], rest)
    else if c = '\\' then
      match rest with
      | [] => none
      | d :: rest2 =>
        match parseJStr rest2 with
        | none => none
        | some (s, r) => some (d :: s, r)
    else
      match parseJStr rest with
      | none => none
      | some (s, r) => some (c :: s, r)

/-- Peel leading decimal digits off the input, as digit values in order. -/
def takeDigits : List Char → List Nat × List Char
  | [] => ([], [])
  | c :: rest =>
    if c.isDigit then
      let (ds, r) := takeDigits rest
      (charVal c :: ds, r)
    else ([], c :: rest)

/-- Parse a decimal natural number (at least one digit). -/
def parseNat (l : List Char) : Option (Nat × List Char) :=
  match takeDigits l with
  | ([], _) => none
  | (ds, r) => some (Nat.ofDigits 10 ds.reverse, r)

/-- Parse one JSON `Subscription` object. -/
def parseSub (l : List Char) : Option (Subscription × List Char) :=
  match dropLit "\x7b\"title\":\"".toList l with
  | none => none
  | some l1 =>
    match parseJStr l1 with
    | none => none
    | some (title, l2) =>
      match dropLit ",\"url\":\"".toList l2 with
      | none => none
      | some l3 =>
        match parseJStr l3 with
        | none => none
        | some (url, l4) =>
          match dropLit ",\"num_episodes\":".toList l4 with
          | none => none
          | some l5 =>
            match parseNat l5 with
            | none => none
            | some (n, l6) =>
              match l6 with
              | '\x7d' :: l7 => some (⟨String.mk title, String.mk url, n⟩, l7)
              | _ => none

/-- Parse a nonempty `,`-separated subscription sequence up to the closing
`]` (which is consumed).  `fuel` bounds the recursion; any fuel of at least
the number of subscriptions suffices. -/
def parseSubsAux : Nat → List Char → Option (List Subscription × List Char)
  | 0, _ => none
  | fuel + 1, l =>
    match parseSub l with
    | none => none
    | some (s, r) =>
      match r with
      | ',' :: r2 =>
        match parseSubsAux fuel r2 with
        | none => none
        | some (ss, r3) => some (s :: ss, r3)
      | ']' :: r2 => some ([s], r2)
      | _ => none

/-- Parse a JSON subscription array after its `[` has been consumed. -/
def parseSubs (l : List Char) : Option (List Subscription × List Char) :=
  if l.head? = some ']' then some ([], l.tail) else parseSubsAux l.length l

/-- `serde_json::from_str::<State>`: parse a serialized `State`, requiring
the whole input to be consumed. -/
def parseState (s : String) : Option State :=
  match dropLit "\x7b\"last_run_time\":\"".toList s.toList with
  | none => none
  | some l1 =>
    match parseNat l1 with
    | none => none
    | some (t, l2) =>
      match dropLit "\",\"subs\":[".toList l2 with
      | none => none
      | some l3 =>
        match parseSubs l3 with
        | none => none
        | some (subs, l4) =>
          match l4 with
          | ['\x7d'] => some ⟨t, subs⟩
          | _ => none

/-! ## Codec round trip -/

theorem parseJStr_cons (c : Char) (rest : List Char) :
    parseJStr (c :: rest) =
      if c = '"' then some ([], rest)
      else if c = '\\' then
        match rest with
        | [] => none
        | d :: rest2 =>
          match parseJStr rest2 with
          | none => none
          | some (s, r) => some (d :: s, r)
      else
        match parseJStr rest with
        | none => none
        | some (s, r) => some (c :: s, r) := by
  rw [parseJStr.eq_def]

theorem dropLit_append (p r : List Char) : dropLit p (p ++ r) = some r := by
  induction p with
  | nil => rfl
  | cons c cs ih => simp [dropLit, ih]

theorem parseJStr_append (s rest : List Char) :
    parseJStr (escStr s ++ '"' :: rest) = some (s, rest) := by
  induction s with
  | nil =>
    rw [show escStr [] = [] from rfl, List.nil_append, parseJStr_cons]
    simp
  | cons c cs ih =>
    by_cases hq : c = '"'
    · subst hq
      rw [show escStr ('"' :: cs) = '\\' :: '"' :: escStr cs from by simp [escStr, escChar]]
      rw [List.cons_append, List.cons_append, parseJStr_cons]
      simp [ih]
    · by_cases hb : c = '\\'
      · subst hb
        rw [show escStr ('\\' :: cs) = '\\' :: '\\' :: escStr cs from by simp [escStr, escChar]]
        rw [List.cons_append, List.cons_append, parseJStr_cons]
        simp [ih]
      · rw [show escStr (c :: cs) = c :: escStr cs from by simp [escStr, escChar, hq, hb]]
        rw [List.cons_append, parseJStr_cons]
        simp [hq, hb, ih]

theorem takeDigits_stop (rest : List Char)
    (h : ∀ c, rest.head? = some c → c.isDigit = false) :
    takeDigits rest = ([], rest) := by
  cases rest with
  | nil => rfl
  | cons c cs => simp [takeDigits, h c rfl]

theorem digitChar_isDigit : ∀ d < 10, (digitChar d).isDigit = true := by decide

theorem charVal_digitChar : ∀ d < 10, charVal (digitChar d) = d := by decide

theorem takeDigits_append (ds : List Nat) (rest : List Char)
    (hd : ∀ d ∈ ds, d < 10)
    (h : ∀ c, rest.head? = some c → c.isDigit = false) :
    takeDigits (ds.map digitChar ++ rest) = (ds, rest) := by
  induction ds with
  | nil => simpa using takeDigits_stop rest h
  | cons d ds ih =>
    have hlt : d < 10 := hd d (by simp)
    have hrec := ih (fun x hx => hd x (by simp [hx]))
    simp [takeDigits, digitChar_isDigit d hlt, charVal_digitChar d hlt, hrec]

theorem parseNat_append (n : Nat) (rest : List Char)
    (h : ∀ c, rest.head? = some c → c.isDigit = false) :
    parseNat (encNat n ++ rest) = some (n, rest) := by
  by_cases hz : n = 0
  · subst hz
    have h0 : takeDigits (([0] : List Nat).map digitChar ++ rest) = ([0], rest) :=
      takeDigits_append [0] rest (by decide) h
    rw [show encNat 0 = ([0] : List Nat).map digitChar from by decide]
    rw [parseNat, h0]
    norm_num [Nat.ofDigits]
  · have hds : ∀ d ∈ (Nat.digits 10 n).reverse, d < 10 := by
      intro d hdm
      exact Nat.digits_lt_base (by norm_num) (List.mem_reverse.mp hdm)
    have ht := takeDigits_append ((Nat.digits 10 n).reverse) rest hds h
    have hne : (Nat.digits 10 n).reverse ≠ [] := by
      simp [Nat.digits_ne_nil_iff_ne_zero, hz]
    rw [show encNat n = ((Nat.digits 10 n).reverse).map digitChar from by
      simp [encNat, hz]]
    rw [parseNat, ht]
    match hmm : (Nat.digits 10 n).reverse, hne with
    | d :: ds, _ =>
      simp only []
      rw [← hmm, List.reverse_reverse, Nat.ofDigits_digits]

theorem String.mk_toList_eq (s : String) : String.mk s.toList = s := rfl

theorem parseSub_append (s : Subscription) (rest : List Char) :
    parseSub (encSub s ++ rest) = some (s, rest) := by
  obtain ⟨t, u, n⟩ := s
  have hnum : parseNat (encNat n ++ '\x7d' :: rest) = some (n, '\x7d' :: rest) := by
    apply parseNat_append
    intro c hc
    simp at hc
    subst hc
    decide
  have harr : encSub ⟨t, u, n⟩ ++ rest =
      "\x7b\"title\":\"".toList ++ (escStr t.toList ++ '"' ::
        (",\"url\":\"".toList ++ (escStr u.toList ++ '"' ::
          (",\"num_episodes\":".toList ++ (encNat n ++ '\x7d' :: rest))))) := by
    simp [encSub, List.append_assoc]
  rw [parseSub, harr]
  simp only [dropLit_append, parseJStr_append, hnum]
  rfl

theorem encSub_length_pos (s : Subscription) : 1 ≤ (encSub s).length := by
  simp [encSub]

theorem encSubs_length (subs : List Subscription) :
    subs.length ≤ (encSubs subs).length := by
  induction subs with
  | nil => simp [encSubs]
  | cons s ss ih =>
    cases ss with
    | nil => simpa [encSubs] using encSub_length_pos s
    | cons s2 ss2 =>
      have h1 := encSub_length_pos s
      simp only [encSubs, List.length_append, List.length_cons] at ih ⊢
      omega

theorem parseSubsAux_append (subs : List Subscription) (s : Subscription)
    (fuel : Nat) (rest : List Char) (hf : subs.length < fuel) :
    parseSubsAux fuel (encSubs (s :: subs) ++ ']' :: rest) = some (s :: subs, rest) := by
  induction subs generalizing s fuel with
  | nil =>
    cases fuel with
    | zero => omega
    | succ f =>
      rw [show encSubs [s] = encSub s from rfl, parseSubsAux, parseSub_append]
      rfl
  | cons s2 ss ih =>
    cases fuel with
    | zero => omega
    | succ f =>
      have harr : encSubs (s :: s2 :: ss) ++ ']' :: rest =
          encSub s ++ ',' :: (encSubs (s2 :: ss) ++ ']' :: rest) := by
        simp [encSubs, List.append_assoc]
      rw [harr, parseSubsAux, parseSub_append]
      have hrec := ih s2 f (by simpa using Nat.lt_of_succ_lt_succ hf)
      simp only [hrec]

theorem parseSubs_append (subs : List Subscription) (rest : List Char) :
    parseSubs (encSubs subs ++ ']' :: rest) = some ((subs : List Subscription), rest) := by
  cases subs with
  | nil => rfl
  | cons s ss =>
    have hhead : ∃ tail, encSubs (s :: ss) ++ ']' :: rest = '\x7b' :: tail := by
      cases ss with
      | nil => exact ⟨_, rfl⟩
      | cons s2 ss2 => exact ⟨_, rfl⟩
    obtain ⟨tail, htail⟩ := hhead
    have hlen : ss.length < (encSubs (s :: ss) ++ ']' :: rest).length := by
      have := encSubs_length (s :: ss)
      simp only [List.length_append, List.length_cons] at this ⊢
      omega
    have hne : (encSubs (s :: ss) ++ ']' :: rest).head? ≠ some ']' := by
      rw [htail]
      simp
    rw [parseSubs, if_neg hne]
    exact parseSubsAux_append ss s _ rest hlen

/-- The executable JSON codec on `State` round-trips: this is the
serde_json serialize/deserialize contract realised concretely. -/
theorem parseState_serializeState (st : State) :
    parseState (serializeState st) = some st := by
  obtain ⟨t, subs⟩ := st
  have hnum : parseNat (encNat t ++ ("\",\"subs\":[".toList
      ++ (encSubs subs ++ ']' :: ['\x7d']))) = some (t, "\",\"subs\":[".toList
      ++ (encSubs subs ++ ']' :: ['\x7d'])) := by
    apply parseNat_append
    intro c hc
    simp at hc
    subst hc
    decide
  have harr : (serializeState ⟨t, subs⟩).toList =
      "\x7b\"last_run_time\":\"".toList ++ (encNat t ++
        ("\",\"subs\":[".toList ++ (encSubs subs ++ ']' :: ['\x7d']))) := by
    simp [serializeState, encState, List.append_assoc]
  have hsubs := parseSubs_append subs ['\x7d']
  rw [parseState, harr]
  simp only [dropLit_append, hnum, hsubs]

/-! ## Filesystem model and `State` persistence -/

/-- A flat filesystem: a map from paths to file contents. -/
def FS := String → Option String

/-- Create/truncate a file and write its contents. -/
def FS.write (fs : FS) (p c : String) : FS :=
  fun q => if q = p then some c else fs q

/-- `fs::rename(src, dst)`: atomic at the filesystem level; `dst` receives
`src`'s content in the same step in which `src` disappears. -/
def FS.rename (fs : FS) (src dst : String) : FS :=
  fun q => if q = src then none else if q = dst then fs src else fs q

/-- Modelled from the spec: `utils::get_podcast_dir` (not under src/)
resolves the fixed podcast root directory. -/
def get_podcast_dir : String := "/podcasts"

/-- The temporary path `State::save` writes first: `<root>/.subscriptions.tmp`. -/
def subTmpPath : String := get_podcast_dir ++ "/.subscriptions.tmp"

/-- Modelled from the spec: `utils::get_sub_file` (not under src/) is the
real state file path `<root>/.subscriptions`. -/
def get_sub_file : String := get_podcast_dir ++ "/.subscriptions"

/-- The first half of `State::save`: serialize and write the temp file.
This is the filesystem state if `save` is interrupted before the rename. -/
def State.saveTemp (st : State) (fs : FS) : FS :=
  fs.write subTmpPath (serializeState st)

/-- `State::save`: write the serialization to the temp path, then rename
the temp path over the real state file. -/
def State.save (st : State) (fs : FS) : FS :=
  (st.saveTemp fs).rename subTmpPath get_sub_file

/-- `State::new` (load).  The returned `Bool` records whether the refresh
sweep ran.  `actions::update_rss` is not under src/; modelled from the
spec: it re-fetches every subscription's feed and runs the download pass
for each, and does not change the subscription list.  Mirrors the source:
no state file → fresh empty state stamped `now`; unparsable file → surfaced
error naming the path; otherwise sweep exactly when
`last_run_time.signed_duration_since(now).num_seconds() < -86400`, then
`last_run_time` is set to `now` unconditionally. -/
def State.new (fs : FS) (now : Nat) : Except String (State × Bool) :=
  match fs get_sub_file with
  | none => .ok (⟨now, []⟩, false)
  | some s =>
    match parseState s with
    | none => .error ("Could not parse: " ++ get_sub_file)
    | some st =>
      let sweep : Bool := decide ((st.last_run_time : Int) - (now : Int) < -86400)
      .ok ({ st with last_run_time := now }, sweep)

/-- `State::subscribe`, restricted to its `State` mutation: collect the
existing titles into a set, fetch the feed (the external `FeedClient`,
passed as a function), and append a new `Subscription` only when the
fetched title is not already present.  The subsequent `save` and
`download_rss` calls do not change the `State`. -/
def State.subscribe (st : State) (fetch : String → Podcast) (url : String) : State :=
  let set := st.subs.map (fun s => s.title)
  let podcast := fetch url
  if podcast.title ∈ set then st
  else { st with subs :=
    st.subs ++ [⟨podcast.title, url, (podcast.episodes).length⟩] }

/-! ## Extension resolution and downloads -/

/-- The suffix of `l` starting at its last `'.'`, when `l` contains one. -/
def splitLastDot : List Char → Option (List Char)
  | [] => none
  | c :: rest =>
    match splitLastDot rest with
    | some e => some e
    | none => if c = '.' then some ('.' :: rest) else none

/-- The suffix after the last `'/'` (the whole list when there is none). -/
def lastSegment : List Char → List Char
  | [] => []
  | c :: rest =>
    if '/' ∈ rest then lastSegment rest
    else if c = '/' then rest
    else c :: rest

/-- Modelled from the spec: `utils::find_extension` (not under src/) sniffs
a file extension from the URL's path: the suffix of the last path segment
starting at its last `'.'`, when present. -/
def find_extension (url : String) : Option String :=
  (splitLastDot (lastSegment url.toList)).map String.mk

/-- `Episode::extension`: the three known MIME types map to fixed
extensions; any other MIME type falls back to sniffing the enclosure URL
(`find_extension(self.url().unwrap())`); no enclosure means no extension. -/
def Episode.extension (e : Episode) : Option String :=
  match e.enclosure with
  | some enclosure =>
    if enclosure.mime_type = "audio/mpeg" then some ".mp3"
    else if enclosure.mime_type = "audio/mp4" then some ".m4a"
    else if enclosure.mime_type = "audio/ogg" then some ".ogg"
    else find_extension enclosure.url
  | none => none

/-- Outcome of one `Episode::download` call.  `skippedSilently` is the
source's fall-through `Ok(())` when the enclosure URL or the title is
missing: no transfer, no message, success.  `panicNoExtension` is the
`self.extension().unwrap()` panic when no extension can be resolved: a
process panic, not an `Err` return.  `fetched url dir file` is the
transfer: the bytes at `url` are written to the file named `file` inside
the directory `dir` under the podcast root (after the `Downloading:`
message). -/
inductive EpResult where
  | skippedSilently
  | panicNoExtension
  | fetched (url : String) (dir : String) (file : String)
deriving DecidableEq, Repr

/-- `Episode::download`: requires an enclosure URL and a title; resolves
the extension (panicking if none); writes `<title><extension>` inside the
directory named after the podcast. -/
def Episode.download (e : Episode) (podcast_name : String) : EpResult :=
  match e.url with
  | none => .skippedSilently
  | some url =>
    match e.title with
    | none => .skippedSilently
    | some title =>
      match e.extension with
      | none => .panicNoExtension
      | some ext => .fetched url podcast_name (title ++ ext)

/-- Everything before the last `'.'` of a filename; the whole name when it
has no dot (the extension-stripping of the library scan). -/
def stripExtChars : List Char → List Char
  | [] => []
  | c :: rest =>
    if c = '.' ∧ ¬ '.' ∈ rest then [] else c :: stripExtChars rest

/-- String version of `stripExtChars`. -/
def strip_extension (s : String) : String := String.mk (stripExtChars s.toList)

/-- Modelled from the spec: `utils::already_downloaded` (not under src/)
lists the filenames under the podcast's storage directory and returns the
set of extension-stripped names.  The directory listing is passed
explicitly. -/
def already_downloaded (files : List String) : List String :=
  files.map strip_extension

/-- The per-episode step of `Podcast::download`'s parallel loop: an episode
without a title, or whose title is in the downloaded set, is not acted on
at all (`none`, checked before any transfer); otherwise `Episode::download`
runs. -/
def processEpisode (downloaded : List String) (ptitle : String) (e : Episode) :
    Option EpResult :=
  match e.title with
  | none => none
  | some t => if t ∈ downloaded then none else some (e.download ptitle)

/-- `Podcast::download` (download_all): scan the podcast's directory, then
run the per-episode step over `episodes()`.  The rayon
`par_iter().for_each` is modelled as the index-aligned list of per-episode
outcomes; the work units are independent. -/
def Podcast.download (p : Podcast) (files : List String) : List (Option EpResult) :=
  p.episodes.map (processEpisode (already_downloaded files) p.title)

/-- Wrapping `usize` subtraction (Rust release build semantics). -/
def usizeSub (a b : Nat) : Nat := (a + 2 ^ 64 - b) % 2 ^ 64

/-- Outcome of one selected episode number in `Podcast::download_specific`:
`indexPanic` when `episodes[episodes.len() - ep_num]` is out of bounds,
`skipped` when the addressed episode has no title or is already
downloaded, otherwise the `Episode::download` outcome. -/
inductive NumOutcome where
  | indexPanic
  | skipped
  | acted (r : EpResult)
deriving DecidableEq, Repr

/-- The skip/fetch logic applied to the addressed episode (the body of the
`if let Some(ep_title)` block in `Podcast::download_specific`). -/
def dedupStep (downloaded : List String) (ptitle : String) (e : Episode) :
    NumOutcome :=
  match e.title with
  | none => .skipped
  | some t =>
    if t ∈ downloaded then .skipped else .acted (e.download ptitle)

/-- One selected number in `Podcast::download_specific`'s loop: index the
episode list at `len - ep_num` (wrapping `usize` subtraction), then apply
the same skip/fetch logic as `Podcast::download`. -/
def stepNum (p : Podcast) (downloaded : List String) (n : Nat) : NumOutcome :=
  match p.episodes[usizeSub p.episodes.length n]? with
  | none => .indexPanic
  | some e => dedupStep downloaded p.title e

/-- `Podcast::download_specific`: the episode-number list is processed with
the same scan set; modelled as the index-aligned list of outcomes. -/
def Podcast.download_specific (p : Podcast) (files : List String)
    (episode_numbers : List Nat) : List NumOutcome :=
  episode_numbers.map (stepNum p (already_downloaded files))

/-- The empty filesystem. -/
def emptyFS : FS := fun _ => none

/-- C1: `State::save` is atomic.  The temp-file write (`saveTemp`, the
world if `save` is interrupted before the rename) leaves the real state
file untouched, so a subsequent `State::new` behaves exactly as before the
interrupted save and still returns the previous valid state; only the
atomic rename publishes the new serialization at the real path. -/
theorem C1_save_atomic (st prev : State) (fs : FS) (now : Nat)
    (h : fs get_sub_file = some (serializeState prev)) :
    State.new (st.saveTemp fs) now = State.new fs now ∧
    (∃ b, State.new (st.saveTemp fs) now =
      .ok ({ last_run_time := now, subs := prev.subs }, b)) ∧
    State.save st fs get_sub_file = some (serializeState st) := by
  have hne : ¬ (get_sub_file = subTmpPath) := by decide
  have h1 : (st.saveTemp fs) get_sub_file = fs get_sub_file := by
    simp [State.saveTemp, FS.write, hne]
  refine ⟨by unfold State.new; rw [h1], ?_, ?_⟩
  · unfold State.new
    rw [h1, h]
    simp only [parseState_serializeState]
    exact ⟨_, rfl⟩
  · have h2 : (st.saveTemp fs) subTmpPath = some (serializeState st) := by
      simp [State.saveTemp, FS.write]
    simp [State.save, FS.rename, hne, h2]

/-- The previous state used in the C1 witness. -/
def prevC1 : State := ⟨0, [⟨"t", "u", 0⟩]⟩

/-- A filesystem already holding a valid serialized state. -/
def fsC1 : FS := FS.write emptyFS get_sub_file (serializeState prevC1)

theorem C1_save_atomic_witness :
    fsC1 get_sub_file = some (serializeState prevC1) ∧
    (State.new (State.saveTemp ⟨0, []⟩ fsC1) 5 = State.new fsC1 5 ∧
     (∃ b, State.new (State.saveTemp ⟨0, []⟩ fsC1) 5 =
       .ok ({ last_run_time := 5, subs := prevC1.subs }, b)) ∧
     State.save ⟨0, []⟩ fsC1 get_sub_file = some (serializeState ⟨0, []⟩)) :=
  ⟨rfl, C1_save_atomic ⟨0, []⟩ prevC1 fsC1 5 rfl⟩

/-- C3: save/load round trip.  After `State::save` succeeds, `State::new`
finds the written file, deserializes it, and returns a state with the same
subscription sequence; only `last_run_time` is rewritten to now. -/
theorem C3_save_load_roundtrip (st : State) (fs : FS) (now : Nat) :
    ∃ b, State.new (State.save st fs) now =
      .ok ({ last_run_time := now, subs := st.subs }, b) := by
  have hne : ¬ (get_sub_file = subTmpPath) := by decide
  have hreal : (State.save st fs) get_sub_file = some (serializeState st) := by
    simp [State.save, State.saveTemp, FS.rename, FS.write, hne]
  unfold State.new
  rw [hreal]
  simp only [parseState_serializeState]
  exact ⟨_, rfl⟩

/-- C2: subscriptions are unique by title.  If the fetched feed's title is
already among the subscription titles, `subscribe` leaves `subs` unchanged;
otherwise exactly the one new entry (feed title, given url, episode count)
is appended.  Subscribing the same URL twice is idempotent on `State`, and
title-uniqueness of `subs` is preserved. -/
theorem C2_subscribe_unique (st : State) (fetch : String → Podcast) (url : String) :
    ((fetch url).title ∈ st.subs.map (fun s => s.title) →
      (st.subscribe fetch url).subs = st.subs) ∧
    ((fetch url).title ∉ st.subs.map (fun s => s.title) →
      (st.subscribe fetch url).subs =
        st.subs ++ [⟨(fetch url).title, url, (fetch url).episodes.length⟩]) ∧
    (st.subscribe fetch url).subscribe fetch url = st.subscribe fetch url ∧
    ((st.subs.map (fun s => s.title)).Nodup →
      ((st.subscribe fetch url).subs.map (fun s => s.title)).Nodup) := by
  by_cases hmem : (fetch url).title ∈ st.subs.map (fun s => s.title)
  · have heq : st.subscribe fetch url = st := by
      simp [State.subscribe, hmem]
    refine ⟨fun _ => by rw [heq], fun hc => absurd hmem hc, by rw [heq, heq], ?_⟩
    intro hnd
    rw [heq]
    exact hnd
  · have heq : (st.subscribe fetch url).subs =
        st.subs ++ [⟨(fetch url).title, url, (fetch url).episodes.length⟩] := by
      simp [State.subscribe, hmem]
    refine ⟨fun hc => absurd hc hmem, fun _ => heq, ?_, ?_⟩
    · have hmem2 : (fetch url).title ∈
          ((st.subscribe fetch url).subs.map (fun s => s.title)) := by
        rw [heq]
        simp
      generalize st.subscribe fetch url = S at hmem2 ⊢
      simp [State.subscribe, hmem2]
    · intro hnd
      rw [heq, List.map_append]
      simp only [List.map_cons, List.map_nil]
      rw [List.nodup_append]
      refine ⟨hnd, List.nodup_singleton _, ?_⟩
      intro a ha hb
      simp at hb
      subst hb
      exact hmem ha

/-- The feed fetcher used in the C2 witness. -/
def fetchC2 : String → Podcast := fun _ => ⟨"P", [⟨some "e", none⟩]⟩

theorem C2_subscribe_unique_witness :
    ((State.mk 0 []).subscribe fetchC2 "u").subs = [⟨"P", "u", 1⟩] ∧
    ((State.mk 0 []).subscribe fetchC2 "u").subscribe fetchC2 "u"
      = (State.mk 0 []).subscribe fetchC2 "u" :=
  ⟨by
    have h := (C2_subscribe_unique (State.mk 0 []) fetchC2 "u").2.1 (by decide)
    simpa using h,
   (C2_subscribe_unique (State.mk 0 []) fetchC2 "u").2.2.1⟩

/-- C4: the refresh sweep on load.  When the state file deserializes, the
sweep flag of `State.new` is exactly "elapsed seconds between the stored
`last_run_time` and now exceed 86400", and `last_run_time` is set to `now`
in the returned state either way. -/
theorem C4_refresh_threshold (fs : FS) (now : Nat) (st : State)
    (h : fs get_sub_file = some (serializeState st)) :
    State.new fs now = .ok ({ last_run_time := now, subs := st.subs },
      decide ((now : Int) - (st.last_run_time : Int) > 86400)) := by
  unfold State.new
  rw [h]
  simp only [parseState_serializeState]
  have : (decide ((st.last_run_time : Int) - (now : Int) < -86400))
      = decide ((now : Int) - (st.last_run_time : Int) > 86400) := by
    rw [decide_eq_decide]
    omega
  rw [this]

/-- The filesystem of the C4 witness: the stored state has
`last_run_time = 0`. -/
def fsC4 : FS := FS.write emptyFS get_sub_file (serializeState ⟨0, []⟩)

theorem C4_refresh_threshold_witness :
    fsC4 get_sub_file = some (serializeState ⟨0, []⟩) ∧
    State.new fsC4 172800 = .ok (⟨172800, []⟩, true) ∧
    State.new fsC4 3600 = .ok (⟨3600, []⟩, false) :=
  ⟨rfl,
   by simpa using C4_refresh_threshold fsC4 172800 ⟨0, []⟩ rfl,
   by simpa using C4_refresh_threshold fsC4 3600 ⟨0, []⟩ rfl⟩

/-! ## Extension sniffing lemmas -/

theorem splitLastDot_eq_none (l : List Char) (h : '.' ∉ l) :
    splitLastDot l = none := by
  induction l with
  | nil => rfl
  | cons c cs ih =>
    have hc : ¬ c = '.' := fun hc => h (by simp [hc])
    have hcs : '.' ∉ cs := fun hm => h (by simp [hm])
    simp [splitLastDot, ih hcs, hc]

theorem splitLastDot_append (a tail : List Char) (h : '.' ∉ tail) :
    splitLastDot (a ++ '.' :: tail) = some ('.' :: tail) := by
  induction a with
  | nil => simp [splitLastDot, splitLastDot_eq_none tail h]
  | cons c cs ih => simp [splitLastDot, ih]

theorem lastSegment_no_slash (l : List Char) (h : '/' ∉ l) :
    lastSegment l = l := by
  cases l with
  | nil => rfl
  | cons c cs =>
    have hc : ¬ c = '/' := fun hc => h (by simp [hc])
    have hcs : '/' ∉ cs := fun hm => h (by simp [hm])
    simp [lastSegment, hcs, hc]

theorem lastSegment_append (a b : List Char) (hb : '/' ∉ b) :
    lastSegment (a ++ b) = lastSegment a ++ b := by
  induction a with
  | nil =>
    rw [List.nil_append, lastSegment_no_slash b hb]
    rfl
  | cons c cs ih =>
    by_cases hcs : '/' ∈ cs
    · have : '/' ∈ cs ++ b := by simp [hcs]
      simp [lastSegment, hcs, this, ih]
    · by_cases hc : c = '/'
      · have hnot : '/' ∉ cs ++ b := by
          simp [List.mem_append, hcs, hb]
        simp [lastSegment, hcs, hnot, hc]
      · have hnot : '/' ∉ cs ++ b := by
          simp [List.mem_append, hcs, hb]
        simp [lastSegment, hcs, hnot, hc]

theorem find_extension_append_xyz (u : String) :
    find_extension (u ++ ".xyz") = some ".xyz" := by
  have htl : (u ++ ".xyz").toList = u.toList ++ '.' :: ['x', 'y', 'z'] := by
    obtain ⟨d⟩ := u
    rfl
  unfold find_extension
  rw [htl, lastSegment_append u.toList ('.' :: ['x', 'y', 'z']) (by decide),
    splitLastDot_append _ _ (by decide)]
  rfl

/-- C6: extension resolution.  With an enclosure present, MIME
`audio/mpeg`, `audio/mp4`, `audio/ogg` resolve to `.mp3`, `.m4a`, `.ogg`;
any other MIME type falls back to sniffing the enclosure URL's path, and a
URL whose path ends in `.xyz` yields `.xyz`. -/
theorem C6_extension_resolution (e : Episode) (enc : Enclosure)
    (h : e.enclosure = some enc) :
    e.extension =
      (if enc.mime_type = "audio/mpeg" then some ".mp3"
       else if enc.mime_type = "audio/mp4" then some ".m4a"
       else if enc.mime_type = "audio/ogg" then some ".ogg"
       else find_extension enc.url) ∧
    (∀ u : String, find_extension (u ++ ".xyz") = some ".xyz") := by
  constructor
  · unfold Episode.extension
    rw [h]
  · exact find_extension_append_xyz

/-- The episode of the C6 witness: an unrecognized MIME type. -/
def epC6 : Episode := ⟨some "t", some ⟨"http://h/f.bin", "application/x"⟩⟩

theorem C6_extension_resolution_witness :
    epC6.enclosure = some ⟨"http://h/f.bin", "application/x"⟩ ∧
    (epC6.extension =
      (if ("application/x" : String) = "audio/mpeg" then some ".mp3"
       else if ("application/x" : String) = "audio/mp4" then some ".m4a"
       else if ("application/x" : String) = "audio/ogg" then some ".ogg"
       else find_extension "http://h/f.bin") ∧
     (∀ u : String, find_extension (u ++ ".xyz") = some ".xyz")) :=
  ⟨rfl, C6_extension_resolution epC6 ⟨"http://h/f.bin", "application/x"⟩ rfl⟩

/-! ## Extension wellformedness and filename stripping -/

theorem splitLastDot_none_no_dot (l : List Char) (h : splitLastDot l = none) :
    '.' ∉ l := by
  induction l with
  | nil => simp
  | cons c cs ih =>
    rw [splitLastDot] at h
    cases heq : splitLastDot cs with
    | some e => rw [heq] at h; exact absurd h (by simp)
    | none =>
      rw [heq] at h
      by_cases hc : c = '.'
      · rw [if_pos hc] at h; exact absurd h (by simp)
      · rw [if_neg hc] at h
        intro hmem
        rcases List.mem_cons.mp hmem with h1 | h1
        · exact hc h1.symm
        · exact ih heq h1

theorem splitLastDot_wf (l e : List Char) (h : splitLastDot l = some e) :
    ∃ tail, e = '.' :: tail ∧ '.' ∉ tail := by
  induction l with
  | nil => exact absurd h (by simp [splitLastDot])
  | cons c cs ih =>
    rw [splitLastDot] at h
    cases heq : splitLastDot cs with
    | some e2 =>
      rw [heq] at h
      obtain rfl : e2 = e := by simpa using h
      exact ih heq
    | none =>
      rw [heq] at h
      by_cases hc : c = '.'
      · rw [if_pos hc] at h
        obtain rfl : '.' :: cs = e := by simpa using h
        exact ⟨cs, rfl, splitLastDot_none_no_dot cs heq⟩
      · rw [if_neg hc] at h
        exact absurd h (by simp)

/-- Every extension `Episode::extension` can return starts with a dot and
contains no further dot. -/
theorem Episode.extension_wf (e : Episode) (ext : String)
    (h : e.extension = some ext) :
    ∃ tail, ext.toList = '.' :: tail ∧ '.' ∉ tail := by
  unfold Episode.extension at h
  cases henc : e.enclosure with
  | none =>
    simp only [henc] at h
    exact absurd h (by simp)
  | some enc =>
    simp only [henc] at h
    by_cases h1 : enc.mime_type = "audio/mpeg"
    · rw [if_pos h1] at h
      obtain rfl : (".mp3" : String) = ext := by simpa using h
      exact ⟨['m', 'p', '3'], by decide⟩
    · rw [if_neg h1] at h
      by_cases h2 : enc.mime_type = "audio/mp4"
      · rw [if_pos h2] at h
        obtain rfl : (".m4a" : String) = ext := by simpa using h
        exact ⟨['m', '4', 'a'], by decide⟩
      · rw [if_neg h2] at h
        by_cases h3 : enc.mime_type = "audio/ogg"
        · rw [if_pos h3] at h
          obtain rfl : (".ogg" : String) = ext := by simpa using h
          exact ⟨['o', 'g', 'g'], by decide⟩
        · rw [if_neg h3] at h
          unfold find_extension at h
          cases hsp : splitLastDot (lastSegment enc.url.toList) with
          | none => rw [hsp] at h; exact absurd h (by simp)
          | some e2 =>
            rw [hsp] at h
            obtain ⟨tail, rfl, hnd⟩ := splitLastDot_wf _ e2 hsp
            obtain rfl : String.mk ('.' :: tail) = ext := by simpa using h
            exact ⟨tail, rfl, hnd⟩

theorem stripExtChars_append (a tail : List Char) (h : '.' ∉ tail) :
    stripExtChars (a ++ '.' :: tail) = a := by
  induction a with
  | nil => simp [stripExtChars, h]
  | cons c cs ih =>
    have hdot : '.' ∈ cs ++ '.' :: tail := by simp
    simp [stripExtChars, hdot, ih]

/-- Stripping the extension back off a filename `<title><ext>` recovers the
title, for any extension `Episode::extension` can produce. -/
theorem strip_extension_of_wf (t ext : String) (tail : List Char)
    (h1 : ext.toList = '.' :: tail) (h2 : '.' ∉ tail) :
    strip_extension (t ++ ext) = t := by
  obtain ⟨a⟩ := t
  obtain ⟨b⟩ := ext
  obtain rfl : b = '.' :: tail := h1
  unfold strip_extension
  rw [show (String.mk a ++ String.mk ('.' :: tail)).toList = a ++ '.' :: tail from rfl]
  rw [stripExtChars_append a tail h2]

/-- The filename written by a download outcome, when one was fetched. -/
def fetchedFile : Option EpResult → Option String
  | some (.fetched _ _ f) => some f
  | _ => none

theorem download_getElem (p : Podcast) (files : List String) (i : Nat) :
    (p.download files)[i]? =
      (p.episodes[i]?).map (processEpisode (already_downloaded files) p.title) := by
  unfold Podcast.download
  rw [List.getElem?_map]

theorem processEpisode_of_mem (dl : List String) (pt : String) (e : Episode)
    (t : String) (ht : e.title = some t) (hm : t ∈ dl) :
    processEpisode dl pt e = none := by
  simp [processEpisode, ht, hm]

/-- C5: download deduplication.  An episode whose title is in the
prescanned downloaded set is never fetched by `Podcast::download` (the
check precedes any transfer: its outcome slot is `none`), and on a second
`Podcast::download` run whose directory scan also sees the files written by
the first run, no episode fetched by the first run is fetched again. -/
theorem C5_download_dedup (p : Podcast) (files : List String) :
    (∀ (i : Nat) (e : Episode) (t : String),
        p.episodes[i]? = some e → e.title = some t →
        t ∈ already_downloaded files → (p.download files)[i]? = some none) ∧
    (∀ (i : Nat) (u d f : String),
        (p.download files)[i]? = some (some (.fetched u d f)) →
        (p.download (files ++ (p.download files).filterMap fetchedFile))[i]?
          = some none) := by
  constructor
  · intro i e t he ht hmem
    rw [download_getElem, he, Option.map_some']
    exact congrArg some (processEpisode_of_mem _ _ e t ht hmem)
  · intro i u d f hrun
    rw [download_getElem] at hrun
    cases he : p.episodes[i]? with
    | none => rw [he] at hrun; exact absurd hrun (by simp)
    | some e =>
      rw [he] at hrun
      simp only [Option.map_some', Option.some.injEq] at hrun
      cases hte : e.title with
      | none => simp [processEpisode, hte] at hrun
      | some t =>
        simp only [processEpisode, hte] at hrun
        by_cases hm : t ∈ already_downloaded files
        · simp [hm] at hrun
        · rw [if_neg hm] at hrun
          simp only [Option.some.injEq] at hrun
          cases heu : e.url with
          | none => simp [Episode.download, heu] at hrun
          | some url =>
            cases hex : e.extension with
            | none => simp [Episode.download, heu, hte, hex] at hrun
            | some ext =>
              obtain ⟨tail, htl, hnd⟩ := Episode.extension_wf e ext hex
              have hstrip : strip_extension (t ++ ext) = t :=
                strip_extension_of_wf t ext tail htl hnd
              have hmemlist : (some (EpResult.fetched url p.title (t ++ ext)) :
                  Option EpResult) ∈ p.download files := by
                apply List.getElem?_mem
                rw [download_getElem, he, Option.map_some']
                exact congrArg some (by
                  simp [processEpisode, hte, hm, Episode.download, heu, hex])
              have hfe : (t ++ ext) ∈ (p.download files).filterMap fetchedFile :=
                List.mem_filterMap.mpr ⟨_, hmemlist, rfl⟩
              have hmem2 : t ∈ already_downloaded
                  (files ++ (p.download files).filterMap fetchedFile) := by
                unfold already_downloaded
                rw [List.map_append]
                apply List.mem_append_right
                rw [← hstrip]
                exact List.mem_map_of_mem _ hfe
              rw [download_getElem, he, Option.map_some']
              exact congrArg some (processEpisode_of_mem _ _ e t hte hmem2)

/-- The C5 witness podcast: episode "a" already on disk, "b" not. -/
def pC5 : Podcast :=
  ⟨"P", [⟨some "a", some ⟨"http://x/a.mp3", "audio/mpeg"⟩⟩,
         ⟨some "b", some ⟨"http://x/b.mp3", "audio/mpeg"⟩⟩]⟩

theorem C5_download_dedup_witness :
    pC5.episodes[0]? = some ⟨some "a", some ⟨"http://x/a.mp3", "audio/mpeg"⟩⟩ ∧
    "a" ∈ already_downloaded ["a.mp3"] ∧
    (pC5.download ["a.mp3"])[0]? = some none ∧
    (pC5.download ["a.mp3"])[1]? =
      some (some (.fetched "http://x/b.mp3" "P" "b.mp3")) ∧
    (pC5.download (["a.mp3"] ++ (pC5.download ["a.mp3"]).filterMap fetchedFile))[1]?
      = some none :=
  ⟨rfl, by decide,
   (C5_download_dedup pC5 ["a.mp3"]).1 0 ⟨some "a", some ⟨"http://x/a.mp3", "audio/mpeg"⟩⟩
     "a" rfl rfl (by decide),
   by decide,
   (C5_download_dedup pC5 ["a.mp3"]).2 1 "http://x/b.mp3" "P" "b.mp3" (by decide)⟩

/-- The C7 failing input: enclosure URL and title present, unrecognized
MIME type, and a URL path with no extension. -/
def epC7 : Episode :=
  ⟨some "ep", some ⟨"http://host/stream", "application/octet-stream"⟩⟩

/-- C7 (code bug): with an enclosure URL and a title but no determinable
extension, `Episode::download` does not produce a per-episode `Err`: it
evaluates `self.extension().unwrap()` on `None` and panics, which aborts
the whole batch rather than being printed and skipped. -/
theorem C7_no_extension_panics :
    epC7.url = some "http://host/stream" ∧
    epC7.title = some "ep" ∧
    epC7.extension = none ∧
    epC7.download "P" = .panicNoExtension ∧
    Podcast.download ⟨"P", [epC7]⟩ [] = [some .panicNoExtension] := by
  decide

/-- C8: an episode missing its enclosure URL or its title is skipped
silently by `Episode::download`: no transfer, no message, `Ok(())`. -/
theorem C8_missing_url_or_title_silent (e : Episode) (name : String)
    (h : e.url = none ∨ e.title = none) :
    e.download name = .skippedSilently := by
  rcases h with h | h
  · unfold Episode.download
    rw [h]
  · unfold Episode.download
    cases heu : e.url with
    | none => rfl
    | some url => rw [h]

theorem C8_missing_url_or_title_silent_witness :
    ((⟨none, none⟩ : Episode).url = none ∨ (⟨none, none⟩ : Episode).title = none) ∧
    (⟨none, none⟩ : Episode).download "P" = .skippedSilently :=
  ⟨Or.inl rfl, C8_missing_url_or_title_silent ⟨none, none⟩ "P" (Or.inl rfl)⟩

/-! ## Selected-download indexing -/

theorem usizeSub_eq_sub (len n : Nat) (hn : n ≤ len) (hlen : len < 2 ^ 64) :
    usizeSub len n = len - n := by
  unfold usizeSub
  rw [show len + 2 ^ 64 - n = (len - n) + 2 ^ 64 from by omega, Nat.add_mod_right]
  exact Nat.mod_eq_of_lt (by omega)

theorem usizeSub_lt_iff (len n : Nat) (hn : n < 2 ^ 64) (hlen : len < 2 ^ 64) :
    usizeSub len n < len ↔ (1 ≤ n ∧ n ≤ len) := by
  unfold usizeSub
  rcases Nat.lt_or_ge len n with hgt | hle
  · rw [Nat.mod_eq_of_lt (by omega)]
    omega
  · rw [show len + 2 ^ 64 - n = (len - n) + 2 ^ 64 from by omega, Nat.add_mod_right,
      Nat.mod_eq_of_lt (by omega)]
    omega

/-- C9: the 1-based newest-first inversion.  For `1 ≤ n ≤ len` the wrapped
index equals `len - n`, the outcome for `n` is the skip/fetch logic applied
to `episodes[len - n]`, and `download_specific` with `[1]` addresses
exactly the last element of the episode list. -/
theorem C9_selected_inversion (p : Podcast) (files : List String) (n : Nat)
    (_h1 : 1 ≤ n) (h2 : n ≤ p.episodes.length)
    (hlen : p.episodes.length < 2 ^ 64) :
    usizeSub p.episodes.length n = p.episodes.length - n ∧
    (∀ e : Episode, p.episodes[p.episodes.length - n]? = some e →
      stepNum p (already_downloaded files) n =
        dedupStep (already_downloaded files) p.title e) ∧
    (∀ hne : p.episodes ≠ [],
      p.download_specific files [1] =
        [dedupStep (already_downloaded files) p.title (p.episodes.getLast hne)]) := by
  refine ⟨usizeSub_eq_sub _ n h2 hlen, ?_, ?_⟩
  · intro e he
    unfold stepNum
    rw [usizeSub_eq_sub _ n h2 hlen, he]
  · intro hne
    have hpos : 0 < p.episodes.length := List.length_pos.mpr hne
    unfold Podcast.download_specific
    simp only [List.map_cons, List.map_nil]
    have hstep : stepNum p (already_downloaded files) 1 =
        dedupStep (already_downloaded files) p.title (p.episodes.getLast hne) := by
      unfold stepNum
      rw [usizeSub_eq_sub _ 1 hpos hlen,
        List.getElem?_eq_getElem (by omega : p.episodes.length - 1 < p.episodes.length)]
      rw [List.getLast_eq_getElem]
    rw [hstep]

/-- The C9 witness podcast: two episodes, newest first. -/
def pC9 : Podcast :=
  ⟨"P", [⟨some "new", some ⟨"http://x/new.mp3", "audio/mpeg"⟩⟩,
         ⟨some "old", some ⟨"http://x/old.mp3", "audio/mpeg"⟩⟩]⟩

theorem C9_selected_inversion_witness :
    (1 ≤ 1 ∧ 1 ≤ pC9.episodes.length ∧ pC9.episodes.length < 2 ^ 64) ∧
    usizeSub pC9.episodes.length 1 = pC9.episodes.length - 1 ∧
    pC9.download_specific [] [1] =
      [dedupStep (already_downloaded []) pC9.title
        (pC9.episodes.getLast (by decide))] ∧
    pC9.download_specific [] [1] =
      [.acted (.fetched "http://x/old.mp3" "P" "old.mp3")] :=
  ⟨⟨le_refl 1, by decide, by decide⟩,
   (C9_selected_inversion pC9 [] 1 (le_refl 1) (by decide) (by decide)).1,
   (C9_selected_inversion pC9 [] 1 (le_refl 1) (by decide) (by decide)).2.2 (by decide),
   by decide⟩

/-- C10: the indexing in `download_specific` is in bounds exactly under the
precondition `1 ≤ n ≤ len`: the wrapped index `episodes[len - n]` hits an
element iff `1 ≤ n ∧ n ≤ len`, and otherwise (e.g. `n = 0` or `n > len`)
the out-of-range branch — a Rust index panic — is reached. -/
theorem C10_selected_bounds (p : Podcast) (files : List String) (n : Nat)
    (hn : n < 2 ^ 64) (hlen : p.episodes.length < 2 ^ 64) :
    ((p.episodes[usizeSub p.episodes.length n]?).isSome ↔
      1 ≤ n ∧ n ≤ p.episodes.length) ∧
    (stepNum p (already_downloaded files) n ≠ .indexPanic ↔
      1 ≤ n ∧ n ≤ p.episodes.length) := by
  have hiff : ∀ i : Nat, (p.episodes[i]?).isSome ↔ i < p.episodes.length := by
    intro i
    constructor
    · intro hs
      by_contra hlt
      rw [List.getElem?_eq_none (by omega)] at hs
      simp at hs
    · intro hlt
      rw [List.getElem?_eq_getElem hlt]
      rfl
  have hkey := usizeSub_lt_iff p.episodes.length n hn hlen
  constructor
  · rw [hiff]
    exact hkey
  · unfold stepNum
    cases he : p.episodes[usizeSub p.episodes.length n]? with
    | none =>
      have : ¬ (usizeSub p.episodes.length n < p.episodes.length) := by
        intro hc
        rw [List.getElem?_eq_getElem hc] at he
        exact absurd he (by simp)
      simp only [ne_eq, not_true_eq_false, false_iff]
      exact fun hc => this (hkey.mpr hc)
    | some e =>
      have hno : dedupStep (already_downloaded files) p.title e ≠ .indexPanic := by
        unfold dedupStep
        cases e.title with
        | none => simp
        | some t =>
          by_cases hm : t ∈ already_downloaded files
          · simp [hm]
          · simp [hm]
      have hin : usizeSub p.episodes.length n < p.episodes.length := by
        by_contra hc
        rw [List.getElem?_eq_none (by omega)] at he
        exact absurd he (by simp)
      exact iff_of_true hno (hkey.mp hin)

/-- The C10 witness: `n = 1` is in bounds for a two-episode list, `n = 0`
and `n = 3` are not. -/
theorem C10_selected_bounds_witness :
    (1 < 2 ^ 64 ∧ pC9.episodes.length < 2 ^ 64) ∧
    ((pC9.episodes[usizeSub pC9.episodes.length 1]?).isSome ↔
      1 ≤ 1 ∧ 1 ≤ pC9.episodes.length) ∧
    (stepNum pC9 (already_downloaded []) 0 ≠ .indexPanic ↔
      1 ≤ 0 ∧ 0 ≤ pC9.episodes.length) :=
  ⟨⟨by decide, by decide⟩,
   (C10_selected_bounds pC9 [] 1 (by decide) (by decide)).1,
   (C10_selected_bounds pC9 [] 0 (by decide) (by decide)).2⟩
